import Mathlib

/-!
Verification of the transaction-lifecycle / stock-ledger core of the
raja-repair-cirebon web app (src/lib/storage.ts and src/lib/types.ts,
provided as src/unnamed/part_006 and src/unnamed/part_003).

Shallow embedding notes:
* String ids stay `String`; JS `===` on ids becomes `==` (String BEq).
* JS numbers holding stock / quantity / price are embedded as `Int`
  (the code only ever adds, subtracts and compares them).
* `createdAt` / `updatedAt` timestamps are elided: no claim depends on
  them, and the code only stamps them with the current clock.
* localStorage collections become explicit fields of a `Store` record;
  each function that the code writes through `setToStorage` becomes a
  pure function returning a new `Store` (with its `boolean` result made
  explicit as the first component of a pair).
* In-place mutation of the element found by `Array.findIndex` plus
  `forEach` loops become `updateFirst` (rewrite the first element
  matching a predicate) folded over the items.
-/

/-- `type: 'in' | 'out'` from src/unnamed/part_003 (`inbound` embeds `'in'`,
`outbound` embeds `'out'`; `in` is a Lean keyword). -/
inductive TransactionType where
  | inbound
  | outbound
deriving DecidableEq, Repr

/-- Transaction statuses appearing in the repository.  The declared type in
src/unnamed/part_003 lists `pending | payment_confirmed | completed |
cancelled`; the dashboard in src/unnamed/part_005 additionally matches the
string statuses `processing`, `ready_for_pickup` and `shipping` of the
richer lifecycle variant, so all seven are included.  The ledger code only
ever tests equality with `completed`. -/
inductive TransactionStatus where
  | pending
  | payment_confirmed
  | processing
  | ready_for_pickup
  | shipping
  | completed
  | cancelled
deriving DecidableEq, Repr

/-- User tier `'regular' | 'vip'` driving pricing (richer types variant,
used by src/unnamed/part_010). -/
inductive UserType where
  | regular
  | vip
deriving DecidableEq, Repr

/-- Product record (src/unnamed/part_003); `vipPrice` is the optional field
of the richer variant read by `getPriceForUser`; timestamps elided. -/
structure Product where
  id : String
  code : String
  name : String
  categoryId : String
  price : Int
  vipPrice : Option Int
  stock : Int
deriving DecidableEq, Repr

/-- Product category (src/unnamed/part_003); timestamps elided. -/
structure ProductCategory where
  id : String
  name : String
deriving DecidableEq, Repr

/-- Transaction line item (src/unnamed/part_003). -/
structure TransactionItem where
  productId : String
  quantity : Int
  priceAtTransaction : Int
deriving DecidableEq, Repr

/-- Transaction record (src/unnamed/part_003); optional delivery fields and
timestamps elided (no claim touches them). -/
structure Transaction where
  id : String
  type : TransactionType
  items : List TransactionItem
  totalAmount : Int
  userId : String
  status : TransactionStatus
deriving DecidableEq, Repr

/-- The localStorage collections the core reads and writes. -/
structure Store where
  categories : List ProductCategory
  products : List Product
  transactions : List Transaction
deriving DecidableEq, Repr

/-- Rewrite the first element satisfying `p` with `f` and leave the rest
unchanged: the meaning of the code's `findIndex` + in-place element update
(a missing match leaves the list untouched, as `findIndex === -1` does). -/
def updateFirst (p : α → Bool) (f : α → α) : List α → List α
  | [] => []
  | x :: xs => if p x then f x :: xs else x :: updateFirst p f xs

/-- One iteration of the `forEach` loop in `updateStockFromTransaction`
(src/unnamed/part_006 lines 272-284): find the item's product; `in`
increments stock by the quantity, `out` decrements and clamps at 0; a
missing product is skipped. -/
def applyStockItem (ty : TransactionType) (item : TransactionItem)
    (products : List Product) : List Product :=
  updateFirst (fun p => p.id == item.productId)
    (fun p =>
      match ty with
      | .inbound => { p with stock := p.stock + item.quantity }
      | .outbound =>
          let s := p.stock - item.quantity
          { p with stock := if s < 0 then 0 else s })
    products

/-- `updateStockFromTransaction` (src/unnamed/part_006 lines 267-287):
guard on `status === 'completed'`, then apply every item in order. -/
def updateStockFromTransaction (t : Transaction) (products : List Product) :
    List Product :=
  if t.status ≠ .completed then products
  else t.items.foldl (fun ps item => applyStockItem t.type item ps) products

/-- One iteration of the `forEach` loop in `reverseTransactionStockEffects`
(src/unnamed/part_006 lines 317-328): the mirror of `applyStockItem` with
`in`/`out` swapped; the decrement again clamps at 0. -/
def reverseStockItem (ty : TransactionType) (item : TransactionItem)
    (products : List Product) : List Product :=
  updateFirst (fun p => p.id == item.productId)
    (fun p =>
      match ty with
      | .inbound =>
          let s := p.stock - item.quantity
          { p with stock := if s < 0 then 0 else s }
      | .outbound => { p with stock := p.stock + item.quantity })
    products

/-- `reverseTransactionStockEffects` (src/unnamed/part_006 lines 312-332). -/
def reverseTransactionStockEffects (t : Transaction)
    (products : List Product) : List Product :=
  if t.status ≠ .completed then products
  else t.items.foldl (fun ps item => reverseStockItem t.type item ps) products

/-- `addTransaction` (src/unnamed/part_006 lines 256-265): append the
transaction; if its status is already `completed`, apply its stock effect
once. -/
def addTransaction (t : Transaction) (s : Store) : Store :=
  let s' := { s with transactions := s.transactions ++ [t] }
  if t.status = .completed then
    { s' with products := updateStockFromTransaction t s'.products }
  else s'

/-- `updateTransaction` (src/unnamed/part_006 lines 289-310): locate the
stored transaction by id; crossing into `completed` applies the new
transaction's stock effect, crossing out of `completed` reverses the old
one's; then the stored record is replaced.  Returns `false` untouched when
the id is unknown. -/
def updateTransaction (t : Transaction) (s : Store) : Bool × Store :=
  match s.transactions.find? (fun old => old.id == t.id) with
  | none => (false, s)
  | some old =>
      let products' :=
        if old.status ≠ .completed ∧ t.status = .completed then
          updateStockFromTransaction t s.products
        else if old.status = .completed ∧ t.status ≠ .completed then
          reverseTransactionStockEffects old s.products
        else s.products
      (true,
        { s with
          products := products'
          transactions := updateFirst (fun o => o.id == t.id) (fun _ => t)
            s.transactions })

/-- `updateTransactionStatus` (src/unnamed/part_006 lines 334-348): look the
transaction up by id and delegate to `updateTransaction` with only the
status replaced.  Note the source performs no transition-legality or actor
check here. -/
def updateTransactionStatus (tid : String) (st : TransactionStatus)
    (s : Store) : Bool × Store :=
  match s.transactions.find? (fun t => t.id == tid) with
  | none => (false, s)
  | some old => updateTransaction { old with status := st } s

/-- `deleteCategory` (src/unnamed/part_006 lines 171-188): refuse when any
product references the category, otherwise filter it out (succeeding only
when something was removed). -/
def deleteCategory (categoryId : String) (s : Store) : Bool × Store :=
  if s.products.any (fun p => p.categoryId == categoryId) then (false, s)
  else
    let filtered := s.categories.filter (fun c => !(c.id == categoryId))
    if filtered.length ≠ s.categories.length then
      (true, { s with categories := filtered })
    else (false, s)

/-- `deleteProduct` (src/unnamed/part_006 lines 240-249). -/
def deleteProduct (productId : String) (s : Store) : Bool × Store :=
  let filtered := s.products.filter (fun p => !(p.id == productId))
  if filtered.length ≠ s.products.length then
    (true, { s with products := filtered })
  else (false, s)

/-- `updateProduct` (src/unnamed/part_006 lines 228-238): replace the first
product with the same id; only the products collection is written. -/
def updateProduct (up : Product) (s : Store) : Bool × Store :=
  if s.products.any (fun p => p.id == up.id) then
    (true,
      { s with
          products :=
            updateFirst (fun p => p.id == up.id) (fun _ => up) s.products })
  else (false, s)

/-- The item loop inside `canProcessTransaction`
(src/.storage/13/44ed987f/transaction-form.tsx lines 881-888): walk the
items in order; a missing product or `product.stock < item.quantity`
returns `false` immediately, otherwise continue with the rest. -/
def canProcessLoop (products : List Product) : List TransactionItem → Bool
  | [] => true
  | item :: rest =>
      match products.find? (fun p => p.id == item.productId) with
      | none => false
      | some product =>
          if product.stock < item.quantity then false
          else canProcessLoop products rest

/-- `canProcessTransaction` (src/.storage/13/44ed987f/transaction-form.tsx
lines 879-891): for an `out` transaction, run the stock-sufficiency loop
over its items against the current product collection (the source reads it
via `getProducts()`; here it is the explicit argument); any other type
returns `true` unconditionally.  It only reads the products — a pure
predicate. -/
def canProcessTransaction (t : Transaction) (products : List Product) :
    Bool :=
  if t.type = .outbound then canProcessLoop products t.items
  else true

/-- Modelled from the spec: `resolveUnitPrice` / `getPriceForUser` (its
definition is not among the provided source files; src/unnamed/part_010
only calls it) — returns `vipPrice` when the user tier is `vip` and
`vipPrice` is set, else the base `price`. -/
def getPriceForUser (product : Product) (userType : UserType) : Int :=
  match userType, product.vipPrice with
  | .vip, some vp => vp
  | .vip, none => product.price
  | .regular, _ => product.price

/-- The transaction record built by the creation path `onSubmit`
(src/.storage/135/34e43a46/transaction-form.tsx lines 247-261):
`status: type === 'in' ? 'completed' : 'pending'` — an `in` transaction is
created directly in the terminal `completed` status, an `out` one in
`pending`.  The generated id becomes a parameter; timestamps and the
optional delivery / payment fields are elided as elsewhere. -/
def mkNewTransaction (id : String) (ty : TransactionType)
    (items : List TransactionItem) (totalAmount : Int) (userId : String) :
    Transaction :=
  { id := id, type := ty, items := items, totalAmount := totalAmount,
    userId := userId,
    status := if ty = .inbound then .completed else .pending }

/-! ### Observation helpers -/

/-- Stock of the (first) product with the given id, `none` when missing. -/
def stockOf (pid : String) (products : List Product) : Option Int :=
  (products.find? (fun p => p.id == pid)).map Product.stock

/-- The quantities of the items of a transaction that reference a given
product id, in order. -/
def qtysFor (pid : String) (items : List TransactionItem) : List Int :=
  (items.filter (fun i => i.productId == pid)).map TransactionItem.quantity

/-- The scalar stock update one item performs in `updateStockFromTransaction`. -/
def scalarApply (ty : TransactionType) (s q : Int) : Int :=
  match ty with
  | .inbound => s + q
  | .outbound => if s - q < 0 then 0 else s - q

/-- The scalar stock update one item performs in
`reverseTransactionStockEffects`. -/
def scalarReverse (ty : TransactionType) (s q : Int) : Int :=
  match ty with
  | .inbound => if s - q < 0 then 0 else s - q
  | .outbound => s + q

/-- `noClampOut s qs = true` iff decrementing `s` by the quantities `qs` in
order never goes below zero, i.e. the clamp in the `out` branch never
fires. -/
def noClampOut (s : Int) : List Int → Bool
  | [] => true
  | q :: qs => decide (0 ≤ s - q) && noClampOut (s - q) qs

/-! ### Crossing counters for status paths -/

/-- How many steps of a status path cross *into* `completed` — the exact
condition under which `updateTransaction` applies the stock delta. -/
def applyCount : TransactionStatus → List TransactionStatus → Nat
  | _, [] => 0
  | prev, st :: rest =>
      (if prev ≠ .completed ∧ st = .completed then 1 else 0) + applyCount st rest

/-- How many steps of a status path cross *out of* `completed` — the exact
condition under which `updateTransaction` reverses the stock delta. -/
def reverseCount : TransactionStatus → List TransactionStatus → Nat
  | _, [] => 0
  | prev, st :: rest =>
      (if prev = .completed ∧ st ≠ .completed then 1 else 0) + reverseCount st rest

/-- The status a transaction ends in after following a path of updates. -/
def finalStatus (prev : TransactionStatus) : List TransactionStatus → TransactionStatus
  | [] => prev
  | st :: rest => finalStatus st rest

/-- Fold a path of requested statuses through `updateTransactionStatus`. -/
def runStatusUpdates (tid : String) (path : List TransactionStatus)
    (s : Store) : Store :=
  path.foldl (fun acc st => (updateTransactionStatus tid st acc).snd) s

/-! ### Concrete sample data (used by witnesses and counterexamples) -/

def exCategory : ProductCategory := { id := "c1", name := "Spareparts" }

def exProduct : Product :=
  { id := "p1", code := "PC1", name := "Part one", categoryId := "c1",
    price := 5, vipPrice := some 4, stock := 10 }

def exItem : TransactionItem :=
  { productId := "p1", quantity := 4, priceAtTransaction := 5 }

def exTransaction : Transaction :=
  { id := "t1", type := .outbound, items := [exItem], totalAmount := 20,
    userId := "u1", status := .pending }

def exStore : Store :=
  { categories := [exCategory], products := [exProduct],
    transactions := [exTransaction] }

def exOutCompleted : Transaction :=
  { id := "t2", type := .outbound, items := [exItem], totalAmount := 20,
    userId := "u1", status := .completed }

def exInboundItem : TransactionItem :=
  { productId := "p2", quantity := 10, priceAtTransaction := 3 }

def exProductZero : Product :=
  { id := "p2", code := "PC2", name := "Part two", categoryId := "c1",
    price := 3, vipPrice := none, stock := 0 }

def exStoreZero : Store :=
  { categories := [exCategory], products := [exProductZero],
    transactions := [] }

def exMissingItem : TransactionItem :=
  { productId := "ghost", quantity := 2, priceAtTransaction := 1 }

def exMixed : Transaction :=
  { id := "t3", type := .outbound, items := [exMissingItem, exItem],
    totalAmount := 22, userId := "u1", status := .completed }

/-- The items of a transaction whose referenced product is present in the
given product collection. -/
def presentItems (t : Transaction) (ps : List Product) : List TransactionItem :=
  t.items.filter (fun i => ps.any (fun p => p.id == i.productId))

/-! ### Lemmas about `updateFirst` -/

theorem updateFirst_eq_of_not_any (q : α → Bool) (f : α → α) (l : List α)
    (h : l.any q = false) : updateFirst q f l = l := by
  induction l with
  | nil => rfl
  | cons a l ih =>
      simp only [List.any_cons, Bool.or_eq_false_iff] at h
      simp [updateFirst, h.1, ih h.2]

theorem mem_updateFirst (q : α → Bool) (f : α → α) (l : List α) (x : α)
    (hx : x ∈ updateFirst q f l) :
    x ∈ l ∨ ∃ a ∈ l, q a = true ∧ x = f a := by
  induction l with
  | nil => simp [updateFirst] at hx
  | cons a l ih =>
      simp only [updateFirst] at hx
      by_cases h : q a
      · simp [h] at hx
        rcases hx with hx | hx
        · exact Or.inr ⟨a, by simp, h, hx⟩
        · exact Or.inl (List.mem_cons_of_mem _ hx)
      · simp [h] at hx
        rcases hx with hx | hx
        · exact Or.inl (by simp [hx])
        · rcases ih hx with h1 | ⟨b, hb, hqb, hxb⟩
          · exact Or.inl (List.mem_cons_of_mem _ h1)
          · exact Or.inr ⟨b, List.mem_cons_of_mem _ hb, hqb, hxb⟩

theorem map_updateFirst (q : α → Bool) (f : α → α) (g : α → β) (l : List α)
    (hf : ∀ a, q a = true → g (f a) = g a) :
    (updateFirst q f l).map g = l.map g := by
  induction l with
  | nil => rfl
  | cons a l ih =>
      by_cases h : q a
      · simp [updateFirst, h, hf a h]
      · simp [updateFirst, h, ih]

/-- `find?` for id `x` is unchanged by an `updateFirst` keyed on a different
id `y`, provided the rewrite keeps the id `y` fixed. -/
theorem find?_updateFirst_of_ne (idf : α → String) (x y : String)
    (f : α → α) (hf : ∀ a, idf a = y → idf (f a) = y) (hxy : x ≠ y)
    (l : List α) :
    (updateFirst (fun a => idf a == y) f l).find? (fun a => idf a == x)
      = l.find? (fun a => idf a == x) := by
  induction l with
  | nil => rfl
  | cons a l ih =>
      by_cases h : idf a = y
      · have h1 : (idf a == y) = true := by simp [h]
        have h2 : (idf (f a) == x) = false := by
          simp [hf a h, (Ne.symm hxy)]
        have h3 : (idf a == x) = false := by
          simp [h, Ne.symm hxy]
        simp [updateFirst, h1, List.find?, h2, h3]
      · have h1 : (idf a == y) = false := by simp [h]
        simp only [updateFirst, h1, Bool.false_eq_true, if_false]
        by_cases h2 : idf a = x
        · simp [List.find?, h2]
        · have h3 : (idf a == x) = false := by simp [h2]
          simp [List.find?, h3, ih]

/-- `find?` for the id the `updateFirst` is keyed on sees the rewritten
element, provided the rewrite keeps that id fixed. -/
theorem find?_updateFirst_of_eq (idf : α → String) (x : String)
    (f : α → α) (hf : ∀ a, idf a = x → idf (f a) = x) (l : List α) :
    (updateFirst (fun a => idf a == x) f l).find? (fun a => idf a == x)
      = (l.find? (fun a => idf a == x)).map f := by
  induction l with
  | nil => rfl
  | cons a l ih =>
      by_cases h : idf a = x
      · have h1 : (idf a == x) = true := by simp [h]
        have h2 : (idf (f a) == x) = true := by simp [hf a h]
        simp [updateFirst, h1, List.find?, h2]
      · have h1 : (idf a == x) = false := by simp [h]
        simp [updateFirst, h1, List.find?, ih]

/-! ### Per-product projection of the ledger folds -/

theorem stockOf_applyStockItem (ty : TransactionType) (item : TransactionItem)
    (pid : String) (ps : List Product) :
    stockOf pid (applyStockItem ty item ps) =
      if item.productId = pid then
        (stockOf pid ps).map (fun s => scalarApply ty s item.quantity)
      else stockOf pid ps := by
  by_cases h : item.productId = pid
  · subst h
    unfold stockOf applyStockItem
    rw [find?_updateFirst_of_eq Product.id item.productId _
      (fun a ha => by cases ty <;> exact ha)]
    cases hfind : ps.find? (fun p => p.id == item.productId) with
    | none => simp [hfind]
    | some p => cases ty <;> simp [scalarApply, hfind]
  · unfold stockOf applyStockItem
    rw [find?_updateFirst_of_ne Product.id pid item.productId _
      (fun a ha => by cases ty <;> exact ha) (Ne.symm h)]
    simp [h]

theorem stockOf_reverseStockItem (ty : TransactionType) (item : TransactionItem)
    (pid : String) (ps : List Product) :
    stockOf pid (reverseStockItem ty item ps) =
      if item.productId = pid then
        (stockOf pid ps).map (fun s => scalarReverse ty s item.quantity)
      else stockOf pid ps := by
  by_cases h : item.productId = pid
  · subst h
    unfold stockOf reverseStockItem
    rw [find?_updateFirst_of_eq Product.id item.productId _
      (fun a ha => by cases ty <;> exact ha)]
    cases hfind : ps.find? (fun p => p.id == item.productId) with
    | none => simp [hfind]
    | some p => cases ty <;> simp [scalarReverse, hfind]
  · unfold stockOf reverseStockItem
    rw [find?_updateFirst_of_ne Product.id pid item.productId _
      (fun a ha => by cases ty <;> exact ha) (Ne.symm h)]
    simp [h]

theorem qtysFor_cons (pid : String) (i : TransactionItem)
    (items : List TransactionItem) :
    qtysFor pid (i :: items) =
      if i.productId = pid then i.quantity :: qtysFor pid items
      else qtysFor pid items := by
  by_cases h : i.productId = pid
  · simp [qtysFor, List.filter_cons, h]
  · simp [qtysFor, List.filter_cons, h]

theorem stockOf_foldl_apply (ty : TransactionType)
    (items : List TransactionItem) (pid : String) (ps : List Product) :
    stockOf pid (items.foldl (fun a i => applyStockItem ty i a) ps)
      = (stockOf pid ps).map
          (fun s => (qtysFor pid items).foldl (scalarApply ty) s) := by
  induction items generalizing ps with
  | nil => cases hs : stockOf pid ps <;> simp [qtysFor, hs]
  | cons i items ih =>
      rw [List.foldl_cons, ih, stockOf_applyStockItem, qtysFor_cons]
      by_cases h : i.productId = pid
      · cases hs : stockOf pid ps <;> simp [h, hs]
      · simp [h]

theorem stockOf_foldl_reverse (ty : TransactionType)
    (items : List TransactionItem) (pid : String) (ps : List Product) :
    stockOf pid (items.foldl (fun a i => reverseStockItem ty i a) ps)
      = (stockOf pid ps).map
          (fun s => (qtysFor pid items).foldl (scalarReverse ty) s) := by
  induction items generalizing ps with
  | nil => cases hs : stockOf pid ps <;> simp [qtysFor, hs]
  | cons i items ih =>
      rw [List.foldl_cons, ih, stockOf_reverseStockItem, qtysFor_cons]
      by_cases h : i.productId = pid
      · cases hs : stockOf pid ps <;> simp [h, hs]
      · simp [h]

theorem stockOf_updateStock (t : Transaction) (pid : String)
    (ps : List Product) (h : t.status = .completed) :
    stockOf pid (updateStockFromTransaction t ps)
      = (stockOf pid ps).map
          (fun s => (qtysFor pid t.items).foldl (scalarApply t.type) s) := by
  unfold updateStockFromTransaction
  simp only [h, ne_eq, not_true_eq_false, if_false]
  exact stockOf_foldl_apply t.type t.items pid ps

theorem stockOf_reverseEffects (t : Transaction) (pid : String)
    (ps : List Product) (h : t.status = .completed) :
    stockOf pid (reverseTransactionStockEffects t ps)
      = (stockOf pid ps).map
          (fun s => (qtysFor pid t.items).foldl (scalarReverse t.type) s) := by
  unfold reverseTransactionStockEffects
  simp only [h, ne_eq, not_true_eq_false, if_false]
  exact stockOf_foldl_reverse t.type t.items pid ps

/-! ### Scalar lemmas about the clamped arithmetic -/

theorem foldl_scalarApply_inbound (qs : List Int) (s : Int) :
    qs.foldl (scalarApply .inbound) s = s + qs.sum := by
  induction qs generalizing s with
  | nil => simp
  | cons q qs ih => simp [scalarApply, ih, add_assoc]

theorem foldl_scalarReverse_outbound (qs : List Int) (s : Int) :
    qs.foldl (scalarReverse .outbound) s = s + qs.sum := by
  induction qs generalizing s with
  | nil => simp
  | cons q qs ih => simp [scalarReverse, ih, add_assoc]

theorem foldl_scalarApply_outbound_of_noClamp (qs : List Int) (s : Int)
    (h : noClampOut s qs = true) :
    qs.foldl (scalarApply .outbound) s = s - qs.sum := by
  induction qs generalizing s with
  | nil => simp
  | cons q qs ih =>
      simp only [noClampOut, Bool.and_eq_true, decide_eq_true_eq] at h
      have h1 : ¬ s - q < 0 := by omega
      simp only [List.foldl_cons, scalarApply, h1, if_false, ih _ h.2,
        List.sum_cons]
      omega

theorem foldl_scalarApply_outbound_ge (qs : List Int) (s : Int) :
    s - qs.sum ≤ qs.foldl (scalarApply .outbound) s := by
  induction qs generalizing s with
  | nil => simp
  | cons q qs ih =>
      simp only [List.foldl_cons, List.sum_cons]
      by_cases h : s - q < 0
      · have := ih 0
        simp only [scalarApply, h, if_true]
        omega
      · have := ih (s - q)
        simp only [scalarApply, h, if_false]
        omega

theorem foldl_scalarApply_outbound_of_clamp (qs : List Int) (s : Int)
    (h : noClampOut s qs = false) :
    s - qs.sum < qs.foldl (scalarApply .outbound) s := by
  induction qs generalizing s with
  | nil => simp [noClampOut] at h
  | cons q qs ih =>
      simp only [noClampOut, Bool.and_eq_false_iff] at h
      simp only [List.foldl_cons, List.sum_cons]
      by_cases h1 : s - q < 0
      · have := foldl_scalarApply_outbound_ge qs 0
        simp only [scalarApply, h1, if_true]
        omega
      · rcases h with h | h
        · simp only [decide_eq_false_iff_not] at h
          omega
        · have := ih (s - q) h
          simp only [scalarApply, h1, if_false]
          omega

theorem foldl_scalarReverse_inbound_exact (qs : List Int) (s : Int)
    (hs : 0 ≤ s) (hq : ∀ q ∈ qs, 0 ≤ q) :
    qs.foldl (scalarReverse .inbound) (s + qs.sum) = s := by
  induction qs with
  | nil => simp
  | cons q qs ih =>
      have hsum : 0 ≤ qs.sum :=
        List.sum_nonneg (fun x hx => hq x (List.mem_cons_of_mem _ hx))
      have h2 : s + (q :: qs).sum - q = s + qs.sum := by
        simp only [List.sum_cons]; omega
      have h1 : ¬ s + qs.sum < 0 := by omega
      simp only [List.foldl_cons, scalarReverse, h2, h1, if_false]
      exact ih (fun x hx => hq x (List.mem_cons_of_mem _ hx))

theorem applyCount_sub_reverseCount (prev : TransactionStatus)
    (path : List TransactionStatus) :
    applyCount prev path + (if prev = .completed then 1 else 0)
      = reverseCount prev path
        + (if finalStatus prev path = .completed then 1 else 0) := by
  induction path generalizing prev with
  | nil => simp [applyCount, reverseCount, finalStatus]
  | cons st rest ih =>
      have hih := ih st
      simp only [applyCount, reverseCount, finalStatus]
      by_cases h1 : prev = .completed <;> by_cases h2 : st = .completed <;>
        simp only [h1, h2] at hih ⊢ <;> simp_all <;> omega

/-! ### Explicit semantics of the transaction-update entry points -/

theorem updateTransaction_found (t : Transaction) (s : Store)
    (old : Transaction)
    (h : s.transactions.find? (fun o => o.id == t.id) = some old) :
    updateTransaction t s =
      (true,
        { s with
          products :=
            if old.status ≠ .completed ∧ t.status = .completed then
              updateStockFromTransaction t s.products
            else if old.status = .completed ∧ t.status ≠ .completed then
              reverseTransactionStockEffects old s.products
            else s.products
          transactions :=
            updateFirst (fun o => o.id == t.id) (fun _ => t)
              s.transactions }) := by
  unfold updateTransaction
  rw [h]

theorem updateTransactionStatus_spec (tid : String) (st : TransactionStatus)
    (s : Store) (old : Transaction)
    (h : s.transactions.find? (fun t => t.id == tid) = some old) :
    (updateTransactionStatus tid st s).fst = true ∧
    (updateTransactionStatus tid st s).snd.transactions
      = updateFirst (fun o => o.id == tid)
          (fun _ => { old with status := st }) s.transactions ∧
    (updateTransactionStatus tid st s).snd.products
      = (if old.status ≠ .completed ∧ st = .completed then
           updateStockFromTransaction { old with status := st } s.products
         else if old.status = .completed ∧ st ≠ .completed then
           reverseTransactionStockEffects old s.products
         else s.products) ∧
    (updateTransactionStatus tid st s).snd.categories = s.categories := by
  have hid : old.id = tid := by
    have := List.find?_some h
    simpa using this
  have hmain : updateTransactionStatus tid st s
      = updateTransaction { old with status := st } s := by
    unfold updateTransactionStatus
    rw [h]
  rw [hmain, updateTransaction_found _ _ old (by simpa [hid] using h)]
  simp [hid]

theorem runStatusUpdates_nonCompleted (tid : String)
    (path : List TransactionStatus) (s : Store) (old : Transaction)
    (hfind : s.transactions.find? (fun t => t.id == tid) = some old)
    (hold : old.status ≠ .completed)
    (hpath : ∀ st ∈ path, st ≠ .completed) :
    (runStatusUpdates tid path s).products = s.products := by
  induction path generalizing s old with
  | nil => rfl
  | cons st rest ih =>
      have hid : old.id = tid := by
        have := List.find?_some hfind
        simpa using this
      have hst : st ≠ TransactionStatus.completed := hpath st (by simp)
      obtain ⟨-, htr, hpr, -⟩ := updateTransactionStatus_spec tid st s old hfind
      have hpr' : (updateTransactionStatus tid st s).snd.products = s.products := by
        rw [hpr]
        simp [hold, hst]
      have hfind' :
          (updateTransactionStatus tid st s).snd.transactions.find?
            (fun t => t.id == tid) = some { old with status := st } := by
        rw [htr,
          find?_updateFirst_of_eq Transaction.id tid
            (fun _ => { old with status := st }) (fun a _ => hid), hfind]
        rfl
      have := ih (updateTransactionStatus tid st s).snd
        { old with status := st } hfind' (by simpa using hst)
        (fun x hx => hpath x (List.mem_cons_of_mem _ hx))
      calc (runStatusUpdates tid (st :: rest) s).products
          = (runStatusUpdates tid rest (updateTransactionStatus tid st s).snd).products := rfl
        _ = (updateTransactionStatus tid st s).snd.products := this
        _ = s.products := hpr'

/-! ### Skipping of items whose product is missing -/

theorem map_id_applyStockItem (ty : TransactionType) (i : TransactionItem)
    (ps : List Product) :
    (applyStockItem ty i ps).map Product.id = ps.map Product.id :=
  map_updateFirst _ _ _ _ (fun a _ => by cases ty <;> rfl)

theorem map_id_reverseStockItem (ty : TransactionType) (i : TransactionItem)
    (ps : List Product) :
    (reverseStockItem ty i ps).map Product.id = ps.map Product.id :=
  map_updateFirst _ _ _ _ (fun a _ => by cases ty <;> rfl)

theorem any_id_eq_of_map_id (l1 l2 : List Product)
    (h : l1.map Product.id = l2.map Product.id) (x : String) :
    l1.any (fun p => p.id == x) = l2.any (fun p => p.id == x) := by
  induction l1 generalizing l2 with
  | nil =>
      cases l2 with
      | nil => rfl
      | cons b l2 => simp at h
  | cons a l1 ih =>
      cases l2 with
      | nil => simp at h
      | cons b l2 =>
          simp only [List.map_cons, List.cons.injEq] at h
          simp only [List.any_cons, h.1, ih l2 h.2]

theorem foldl_apply_filter_present (ty : TransactionType)
    (items : List TransactionItem) (ps : List Product) :
    items.foldl (fun a i => applyStockItem ty i a) ps
      = (items.filter (fun i => ps.any (fun p => p.id == i.productId))).foldl
          (fun a i => applyStockItem ty i a) ps := by
  induction items generalizing ps with
  | nil => rfl
  | cons i items ih =>
      rw [List.filter_cons]
      by_cases h : ps.any (fun p => p.id == i.productId)
      · simp only [h, if_true, List.foldl_cons]
        rw [ih (applyStockItem ty i ps)]
        congr 1
        apply List.filter_congr
        intro x _
        exact any_id_eq_of_map_id _ _ (map_id_applyStockItem ty i ps) _
      · have hfalse : ps.any (fun p => p.id == i.productId) = false := by
          simpa using h
        have hskip : applyStockItem ty i ps = ps :=
          updateFirst_eq_of_not_any _ _ _ hfalse
        simp only [hfalse, Bool.false_eq_true, if_false, List.foldl_cons,
          hskip]
        exact ih ps

theorem foldl_reverse_filter_present (ty : TransactionType)
    (items : List TransactionItem) (ps : List Product) :
    items.foldl (fun a i => reverseStockItem ty i a) ps
      = (items.filter (fun i => ps.any (fun p => p.id == i.productId))).foldl
          (fun a i => reverseStockItem ty i a) ps := by
  induction items generalizing ps with
  | nil => rfl
  | cons i items ih =>
      rw [List.filter_cons]
      by_cases h : ps.any (fun p => p.id == i.productId)
      · simp only [h, if_true, List.foldl_cons]
        rw [ih (reverseStockItem ty i ps)]
        congr 1
        apply List.filter_congr
        intro x _
        exact any_id_eq_of_map_id _ _ (map_id_reverseStockItem ty i ps) _
      · have hfalse : ps.any (fun p => p.id == i.productId) = false := by
          simpa using h
        have hskip : reverseStockItem ty i ps = ps :=
          updateFirst_eq_of_not_any _ _ _ hfalse
        simp only [hfalse, Bool.false_eq_true, if_false, List.foldl_cons,
          hskip]
        exact ih ps

/-! ### Helpers for category deletion -/

theorem length_filter_lt_of_mem (p : α → Bool) (l : List α) (x : α)
    (hx : x ∈ l) (hpx : p x = false) :
    (l.filter p).length < l.length := by
  induction l with
  | nil => cases hx
  | cons a l ih =>
      rw [List.filter_cons]
      rcases List.mem_cons.mp hx with rfl | hx'
      · have hle := List.length_filter_le p l
        simp only [hpx, Bool.false_eq_true, if_false, List.length_cons]
        omega
      · by_cases hpa : p a
        · simp only [hpa, if_true, List.length_cons]
          exact Nat.succ_lt_succ (ih hx')
        · have hpa' : p a = false := by simpa using hpa
          have := ih hx'
          simp only [hpa', Bool.false_eq_true, if_false, List.length_cons]
          omega

theorem deleteCategory_success (cid : String) (s : Store)
    (hno : ∀ p ∈ s.products, p.categoryId ≠ cid)
    (hex : ∃ c ∈ s.categories, c.id = cid) :
    (deleteCategory cid s).fst = true ∧
    (deleteCategory cid s).snd
      = { s with
          categories := s.categories.filter (fun c => !(c.id == cid)) } := by
  have hany : s.products.any (fun p => p.categoryId == cid) = false := by
    rw [List.any_eq_false]
    intro p hp
    simpa using hno p hp
  obtain ⟨c, hc, hcid⟩ := hex
  have hlt : (s.categories.filter (fun c => !(c.id == cid))).length
      < s.categories.length :=
    length_filter_lt_of_mem _ _ c hc (by simp [hcid])
  unfold deleteCategory
  rw [hany]
  simp only [Bool.false_eq_true, if_false]
  rw [if_pos hlt.ne]
  exact ⟨rfl, rfl⟩

theorem eq_of_mem_updateFirst_replace (u : Product) (l : List Product)
    (hnd : (l.map Product.id).Nodup) (x : Product)
    (hx : x ∈ updateFirst (fun p => p.id == u.id) (fun _ => u) l)
    (hid : x.id = u.id) : x = u := by
  induction l with
  | nil => cases hx
  | cons a l ih =>
      by_cases h : a.id = u.id
      · have heq : updateFirst (fun p => p.id == u.id) (fun _ => u) (a :: l)
            = u :: l := by
          simp [updateFirst, h]
        rw [heq] at hx
        rcases List.mem_cons.mp hx with rfl | hx'
        · rfl
        · exfalso
          have hmem : x.id ∈ l.map Product.id := List.mem_map_of_mem _ hx'
          rw [hid, ← h] at hmem
          simp only [List.map_cons, List.nodup_cons] at hnd
          exact hnd.1 hmem
      · have heq : updateFirst (fun p => p.id == u.id) (fun _ => u) (a :: l)
            = a :: updateFirst (fun p => p.id == u.id) (fun _ => u) l := by
          simp [updateFirst, h]
        rw [heq] at hx
        rcases List.mem_cons.mp hx with rfl | hx'
        · exact absurd hid h
        · simp only [List.map_cons, List.nodup_cons] at hnd
          exact ih hnd.2 hx'


/-! ### Non-negativity preservation helpers -/

theorem nonneg_applyStockItem (ty : TransactionType) (i : TransactionItem)
    (ps : List Product) (h0 : ∀ p ∈ ps, 0 ≤ p.stock) (hq : 0 ≤ i.quantity) :
    ∀ p ∈ applyStockItem ty i ps, 0 ≤ p.stock := by
  intro p hp
  rcases mem_updateFirst _ _ _ _ hp with hmem | ⟨a, ha, -, rfl⟩
  · exact h0 p hmem
  · have h := h0 a ha
    cases ty
    · show 0 ≤ a.stock + i.quantity
      omega
    · show 0 ≤ if a.stock - i.quantity < 0 then 0 else a.stock - i.quantity
      split <;> omega

theorem nonneg_reverseStockItem (ty : TransactionType) (i : TransactionItem)
    (ps : List Product) (h0 : ∀ p ∈ ps, 0 ≤ p.stock) (hq : 0 ≤ i.quantity) :
    ∀ p ∈ reverseStockItem ty i ps, 0 ≤ p.stock := by
  intro p hp
  rcases mem_updateFirst _ _ _ _ hp with hmem | ⟨a, ha, -, rfl⟩
  · exact h0 p hmem
  · have h := h0 a ha
    cases ty
    · show 0 ≤ if a.stock - i.quantity < 0 then 0 else a.stock - i.quantity
      split <;> omega
    · show 0 ≤ a.stock + i.quantity
      omega

theorem nonneg_foldl_apply (ty : TransactionType) :
    ∀ (items : List TransactionItem) (ps : List Product),
      (∀ p ∈ ps, 0 ≤ p.stock) → (∀ i ∈ items, 0 ≤ i.quantity) →
      ∀ p ∈ items.foldl (fun a i => applyStockItem ty i a) ps, 0 ≤ p.stock := by
  intro items
  induction items with
  | nil => intro ps h0 _; exact h0
  | cons i items ih =>
      intro ps h0 hq
      rw [List.foldl_cons]
      exact ih (applyStockItem ty i ps)
        (nonneg_applyStockItem ty i ps h0 (hq i (by simp)))
        (fun x hx => hq x (List.mem_cons_of_mem _ hx))

theorem nonneg_foldl_reverse (ty : TransactionType) :
    ∀ (items : List TransactionItem) (ps : List Product),
      (∀ p ∈ ps, 0 ≤ p.stock) → (∀ i ∈ items, 0 ≤ i.quantity) →
      ∀ p ∈ items.foldl (fun a i => reverseStockItem ty i a) ps,
        0 ≤ p.stock := by
  intro items
  induction items with
  | nil => intro ps h0 _; exact h0
  | cons i items ih =>
      intro ps h0 hq
      rw [List.foldl_cons]
      exact ih (reverseStockItem ty i ps)
        (nonneg_reverseStockItem ty i ps h0 (hq i (by simp)))
        (fun x hx => hq x (List.mem_cons_of_mem _ hx))

/-! ### Remaining small helpers -/

theorem mem_qtysFor (pid : String) (items : List TransactionItem) (q : Int)
    (hq : q ∈ qtysFor pid items) : ∃ i ∈ items, i.quantity = q := by
  unfold qtysFor at hq
  obtain ⟨i, hi, rfl⟩ := List.mem_map.mp hq
  exact ⟨i, (List.mem_filter.mp hi).1, rfl⟩

theorem addTransaction_completed (t : Transaction) (s : Store)
    (h : t.status = .completed) :
    (addTransaction t s).products
      = updateStockFromTransaction t s.products := by
  simp [addTransaction, h]

theorem all_of_filter_length_eq (p : α → Bool) (l : List α)
    (h : (l.filter p).length = l.length) : ∀ x ∈ l, p x = true := by
  induction l with
  | nil => intro x hx; cases hx
  | cons a l ih =>
      rw [List.filter_cons] at h
      by_cases hpa : p a
      · intro x hx
        rcases List.mem_cons.mp hx with rfl | hx'
        · exact hpa
        · exact ih (by simpa [hpa] using h) x hx'
      · exfalso
        have hle := List.length_filter_le p l
        have hpa' : p a = false := by simpa using hpa
        rw [hpa'] at h
        simp only [Bool.false_eq_true, if_false, List.length_cons] at h
        omega

theorem deleteProduct_cases (pid : String) (s : Store) :
    (deleteProduct pid s).snd
        = { s with products := s.products.filter (fun p => !(p.id == pid)) }
      ∨ ((deleteProduct pid s).snd = s ∧ ∀ p ∈ s.products, p.id ≠ pid) := by
  by_cases hlen : (s.products.filter (fun p => !(p.id == pid))).length
      = s.products.length
  · right
    refine ⟨?_, ?_⟩
    · unfold deleteProduct
      rw [if_neg (by simpa using hlen)]
    · intro p hp
      have := all_of_filter_length_eq _ _ hlen p hp
      simpa using this
  · left
    unfold deleteProduct
    rw [if_pos hlen]

/-! ### Claim theorems -/

/-- C1 counterexample: `updateTransactionStatus` performs the skip
transition `pending → completed` directly on a stored transaction — it
returns success, the stored status becomes `completed`, and the outbound
stock decrement is applied (stock 10 drops to 6) — instead of rejecting the
illegal transition and leaving the status unchanged as the claim states. -/
theorem C1_counterexample :
    (updateTransactionStatus "t1" .completed exStore).fst = true ∧
    ((updateTransactionStatus "t1" .completed exStore).snd.transactions.map
      Transaction.status) = [.completed] ∧
    ((updateTransactionStatus "t1" .completed exStore).snd.products.map
      Product.stock) = [6] := by
  decide

/-- C1 (amended): `updateTransactionStatus` enforces no transition-legality
or actor check at all: it returns failure (leaving the store unchanged)
exactly when no stored transaction has the requested id, and whenever the
transaction exists it succeeds and overwrites its status with any requested
target status. -/
theorem C1_no_transition_gating (tid : String) (st : TransactionStatus)
    (s : Store) :
    ((updateTransactionStatus tid st s).fst = false ↔
      s.transactions.find? (fun t => t.id == tid) = none) ∧
    (s.transactions.find? (fun t => t.id == tid) = none →
      updateTransactionStatus tid st s = (false, s)) ∧
    (∀ old, s.transactions.find? (fun t => t.id == tid) = some old →
      (updateTransactionStatus tid st s).fst = true ∧
      (updateTransactionStatus tid st s).snd.transactions.find?
        (fun t => t.id == tid) = some { old with status := st }) := by
  have hnone_case : s.transactions.find? (fun t => t.id == tid) = none →
      updateTransactionStatus tid st s = (false, s) := by
    intro hnone
    unfold updateTransactionStatus
    rw [hnone]
  refine ⟨⟨?_, ?_⟩, hnone_case, ?_⟩
  · intro hfalse
    cases hfind : s.transactions.find? (fun t => t.id == tid) with
    | none => rfl
    | some old =>
        obtain ⟨htrue, -, -, -⟩ := updateTransactionStatus_spec tid st s old hfind
        rw [htrue] at hfalse
        cases hfalse
  · intro hnone
    rw [hnone_case hnone]
  · intro old hfind
    have hid : old.id = tid := by
      have := List.find?_some hfind
      simpa using this
    obtain ⟨htrue, htr, -, -⟩ := updateTransactionStatus_spec tid st s old hfind
    refine ⟨htrue, ?_⟩
    rw [htr, find?_updateFirst_of_eq Transaction.id tid
      (fun _ => { old with status := st }) (fun a _ => hid), hfind]
    rfl

/-- C1 witness for the amended theorem: on the sample store, the status
update of the existing transaction `t1` succeeds. -/
theorem C1_witness :
    (updateTransactionStatus "t1" TransactionStatus.completed exStore).fst
      = true :=
  ((C1_no_transition_gating "t1" .completed exStore).2.2 exTransaction
    (by decide)).1

/-- C2: the stock delta of a transaction is applied by `updateTransaction`
exactly on a crossing into `completed`, reversed exactly on a crossing out
of `completed`, updates between two non-`completed` statuses leave the
product collection untouched, and along any status path starting outside
`completed` the number of applies equals the number of reversals plus one
exactly when the final status is `completed` (and equals it otherwise), so
the decrement is in force exactly once while `completed` and zero times
otherwise; concretely, running any all-non-`completed` status path through
`updateTransactionStatus` leaves every product's stock unchanged. -/
theorem C2_stock_delta_exactly_once :
    (∀ (t : Transaction) (s : Store) (old : Transaction),
      s.transactions.find? (fun o => o.id == t.id) = some old →
      (updateTransaction t s).snd.products =
        (if old.status ≠ .completed ∧ t.status = .completed then
          updateStockFromTransaction t s.products
        else if old.status = .completed ∧ t.status ≠ .completed then
          reverseTransactionStockEffects old s.products
        else s.products)) ∧
    (∀ (t : Transaction) (s : Store) (old : Transaction),
      s.transactions.find? (fun o => o.id == t.id) = some old →
      old.status ≠ .completed → t.status ≠ .completed →
      (updateTransaction t s).snd.products = s.products) ∧
    (∀ (s0 : TransactionStatus) (path : List TransactionStatus),
      s0 ≠ .completed →
      applyCount s0 path
        = reverseCount s0 path
          + (if finalStatus s0 path = .completed then 1 else 0)) ∧
    (∀ (tid : String) (path : List TransactionStatus) (s : Store)
        (old : Transaction),
      s.transactions.find? (fun t => t.id == tid) = some old →
      old.status ≠ .completed → (∀ st ∈ path, st ≠ .completed) →
      (runStatusUpdates tid path s).products = s.products) := by
  refine ⟨?_, ?_, ?_, ?_⟩
  · intro t s old h
    rw [updateTransaction_found t s old h]
  · intro t s old h h1 h2
    rw [updateTransaction_found t s old h]
    simp [h1, h2]
  · intro s0 path h
    have hcount := applyCount_sub_reverseCount s0 path
    by_cases hf : finalStatus s0 path = TransactionStatus.completed <;>
      simp [h, hf] at hcount ⊢ <;> omega
  · exact runStatusUpdates_nonCompleted

/-- C2 witness: pushing the pending sample transaction through the
non-`completed` path `payment_confirmed, cancelled` leaves the product
collection unchanged. -/
theorem C2_witness :
    (runStatusUpdates "t1"
      [TransactionStatus.payment_confirmed, TransactionStatus.cancelled]
      exStore).products = exStore.products :=
  C2_stock_delta_exactly_once.2.2.2 "t1" _ exStore exTransaction (by decide)
    (by decide) (by decide)

/-- C3: for a `completed` transaction and a product that exists with stock
`s`, applying the transaction's stock effect and then reversing it restores
the stock to exactly `s` when no clamping at zero occurs — automatically
for `in` transactions on non-negative stock, and for `out` transactions
whenever the running stock never drops below zero during the apply — while
if clamping does occur during an `out` apply, the post-reversal stock
strictly exceeds the pre-effect value. -/
theorem C3_apply_reverse_roundtrip (t : Transaction) (ps : List Product)
    (pid : String) (s : Int) (hst : t.status = .completed)
    (hs : stockOf pid ps = some s)
    (hq : ∀ i ∈ t.items, 0 ≤ i.quantity) :
    (t.type = .inbound → 0 ≤ s →
      stockOf pid (reverseTransactionStockEffects t
        (updateStockFromTransaction t ps)) = some s) ∧
    (t.type = .outbound → noClampOut s (qtysFor pid t.items) = true →
      stockOf pid (reverseTransactionStockEffects t
        (updateStockFromTransaction t ps)) = some s) ∧
    (t.type = .outbound → noClampOut s (qtysFor pid t.items) = false →
      ∃ s', stockOf pid (reverseTransactionStockEffects t
        (updateStockFromTransaction t ps)) = some s' ∧ s < s') := by
  have hq' : ∀ q ∈ qtysFor pid t.items, 0 ≤ q := by
    intro q hmem
    obtain ⟨i, hi, rfl⟩ := mem_qtysFor pid t.items q hmem
    exact hq i hi
  have happly : stockOf pid (updateStockFromTransaction t ps)
      = some ((qtysFor pid t.items).foldl (scalarApply t.type) s) := by
    rw [stockOf_updateStock t pid ps hst, hs]
    rfl
  have hchain : stockOf pid (reverseTransactionStockEffects t
      (updateStockFromTransaction t ps))
      = some ((qtysFor pid t.items).foldl (scalarReverse t.type)
          ((qtysFor pid t.items).foldl (scalarApply t.type) s)) := by
    rw [stockOf_reverseEffects t pid _ hst, happly]
    rfl
  refine ⟨?_, ?_, ?_⟩
  · intro hty hnn
    rw [hchain, hty]
    rw [foldl_scalarApply_inbound]
    rw [foldl_scalarReverse_inbound_exact _ _ hnn hq']
  · intro hty hnc
    rw [hchain, hty]
    rw [foldl_scalarApply_outbound_of_noClamp _ _ hnc,
      foldl_scalarReverse_outbound]
    congr 1
    omega
  · intro hty hnc
    rw [hchain, hty]
    refine ⟨_, rfl, ?_⟩
    have hgt := foldl_scalarApply_outbound_of_clamp _ s hnc
    rw [foldl_scalarReverse_outbound]
    omega

/-- C3 witness: on the sample outbound completed transaction (quantity 4),
apply-then-reverse restores stock 10 exactly; starting from stock 2 the
apply clamps at zero and the post-reversal stock (4) strictly exceeds the
pre-effect value 2. -/
theorem C3_witness :
    stockOf "p1" (reverseTransactionStockEffects exOutCompleted
      (updateStockFromTransaction exOutCompleted [exProduct])) = some 10 ∧
    (∃ s', stockOf "p1" (reverseTransactionStockEffects exOutCompleted
      (updateStockFromTransaction exOutCompleted
        [{ exProduct with stock := 2 }])) = some s' ∧ (2 : Int) < s') := by
  constructor
  · exact (C3_apply_reverse_roundtrip exOutCompleted [exProduct] "p1" 10
      (by decide) (by decide) (by decide)).2.1 rfl (by decide)
  · exact (C3_apply_reverse_roundtrip exOutCompleted
      [{ exProduct with stock := 2 }] "p1" 2
      (by decide) (by decide) (by decide)).2.2 rfl (by decide)

/-- C4: starting from products with non-negative stock and a transaction
with non-negative item quantities, both applying and reversing the
transaction's stock effect keep every product's stock non-negative — a
decrement that would go below zero floors the stock at zero instead of
erroring. -/
theorem C4_stock_nonneg (t : Transaction) (ps : List Product)
    (h0 : ∀ p ∈ ps, 0 ≤ p.stock) (hq : ∀ i ∈ t.items, 0 ≤ i.quantity) :
    (∀ p ∈ updateStockFromTransaction t ps, 0 ≤ p.stock) ∧
    (∀ p ∈ reverseTransactionStockEffects t ps, 0 ≤ p.stock) := by
  constructor
  · unfold updateStockFromTransaction
    split
    · exact h0
    · exact nonneg_foldl_apply t.type t.items ps h0 hq
  · unfold reverseTransactionStockEffects
    split
    · exact h0
    · exact nonneg_foldl_reverse t.type t.items ps h0 hq

/-- C4 witness: the sample outbound completed transaction leaves the
affected product (stock 10 → 6) non-negative. -/
theorem C4_witness :
    (0 : Int) ≤ ({ exProduct with stock := 6 } : Product).stock :=
  (C4_stock_nonneg exOutCompleted [exProduct] (by decide) (by decide)).1
    { exProduct with stock := 6 } (by decide)

theorem canProcessLoop_eq_true (products : List Product)
    (items : List TransactionItem) :
    canProcessLoop products items = true ↔
      ∀ i ∈ items, ∃ p, products.find? (fun q => q.id == i.productId)
        = some p ∧ i.quantity ≤ p.stock := by
  induction items with
  | nil => simp [canProcessLoop]
  | cons i rest ih =>
      simp only [canProcessLoop]
      cases hfind : products.find? (fun q => q.id == i.productId) with
      | none =>
          constructor
          · intro h
            simp at h
          · intro h
            obtain ⟨p, hp, -⟩ := h i (by simp)
            rw [hfind] at hp
            cases hp
      | some p =>
          change (if p.stock < i.quantity then false
            else canProcessLoop products rest) = true ↔ _
          by_cases hlt : p.stock < i.quantity
          · constructor
            · intro h
              simp [hlt] at h
            · intro h
              exfalso
              obtain ⟨p', hp', hle⟩ := h i (by simp)
              rw [hfind] at hp'
              cases hp'
              omega
          · rw [if_neg hlt, ih]
            constructor
            · intro h j hj
              rcases List.mem_cons.mp hj with rfl | hj'
              · exact ⟨p, hfind, by omega⟩
              · exact h j hj'
            · intro h j hj
              exact h j (List.mem_cons_of_mem _ hj)

/-- C5: `canProcessTransaction` returns `true` for an `out` transaction
exactly when every item's product is found in the collection with stock at
least the requested quantity, and returns `true` unconditionally for an
`in` transaction; it is a pure function of the transaction and the product
collection and mutates nothing. -/
theorem C5_canProcessTransaction_spec (t : Transaction)
    (products : List Product) :
    (t.type = .outbound →
      (canProcessTransaction t products = true ↔
        ∀ i ∈ t.items, ∃ p, products.find? (fun q => q.id == i.productId)
          = some p ∧ i.quantity ≤ p.stock)) ∧
    (t.type = .inbound → canProcessTransaction t products = true) := by
  constructor
  · intro hty
    unfold canProcessTransaction
    rw [if_pos hty]
    exact canProcessLoop_eq_true products t.items
  · intro hty
    unfold canProcessTransaction
    rw [if_neg (by simp [hty])]

/-- C5 witness: the sample outbound transaction (quantity 4, stock 10)
passes the check, and an inbound transaction passes with no products at
all. -/
theorem C5_witness :
    canProcessTransaction exOutCompleted [exProduct] = true ∧
    canProcessTransaction
      (mkNewTransaction "t9" .inbound [exInboundItem] 30 "u1")
      ([] : List Product) = true := by
  constructor
  · apply ((C5_canProcessTransaction_spec exOutCompleted [exProduct]).1
      rfl).mpr
    intro i hi
    have hi' : i = exItem := by simpa [exOutCompleted] using hi
    subst hi'
    exact ⟨exProduct, by decide, by decide⟩
  · exact (C5_canProcessTransaction_spec _ []).2 rfl

/-- C6: the creation path builds an inbound transaction directly in status
`completed`, and `addTransaction` applies its stock increment exactly once
at creation: the stock of any existing product rises by the total quantity
its items request. -/
theorem C6_inbound_completed_at_creation (id uid : String)
    (items : List TransactionItem) (total : Int) (s : Store) (pid : String)
    (st : Int) (hs : stockOf pid s.products = some st) :
    (mkNewTransaction id .inbound items total uid).status = .completed ∧
    stockOf pid (addTransaction
      (mkNewTransaction id .inbound items total uid) s).products
      = some (st + (qtysFor pid items).sum) := by
  refine ⟨rfl, ?_⟩
  rw [addTransaction_completed _ _ rfl]
  rw [stockOf_updateStock _ _ _ rfl, hs]
  have hfold := foldl_scalarApply_inbound (qtysFor pid items) st
  simpa using hfold

/-- C6 witness: the spec scenario — an inbound transaction of quantity 10
on a product with stock 0 leaves stock 10 immediately at creation. -/
theorem C6_witness :
    stockOf "p2" (addTransaction
      (mkNewTransaction "t9" .inbound [exInboundItem] 30 "u1")
      exStoreZero).products = some 10 :=
  ((C6_inbound_completed_at_creation "t9" "u1" [exInboundItem] 30 exStoreZero
    "p2" 0 (by decide)).2).trans (by decide)

/-- C7: `deleteCategory` fails and changes nothing whenever some product
references the category; it succeeds (removing exactly that category and
touching no product) when no product references it and the category exists;
and after the last referencing product is deleted (`deleteProduct`) or
recategorized (`updateProduct` to a different category), deleting the same
category succeeds. -/
theorem C7_deleteCategory_referential_integrity (cid : String) (s : Store) :
    ((∃ p ∈ s.products, p.categoryId = cid) →
      deleteCategory cid s = (false, s)) ∧
    ((∀ p ∈ s.products, p.categoryId ≠ cid) →
      (∃ c ∈ s.categories, c.id = cid) →
      (deleteCategory cid s).fst = true ∧
      (deleteCategory cid s).snd
        = { s with
            categories := s.categories.filter (fun c => !(c.id == cid)) }) ∧
    (∀ pid, (∀ p ∈ s.products, p.categoryId = cid → p.id = pid) →
      (∃ c ∈ s.categories, c.id = cid) →
      (deleteCategory cid (deleteProduct pid s).snd).fst = true) ∧
    (∀ u : Product, (s.products.map Product.id).Nodup →
      u.categoryId ≠ cid →
      (∀ p ∈ s.products, p.categoryId = cid → p.id = u.id) →
      (∃ c ∈ s.categories, c.id = cid) →
      (deleteCategory cid (updateProduct u s).snd).fst = true) := by
  refine ⟨?_, ?_, ?_, ?_⟩
  · rintro ⟨p, hp, hcat⟩
    have hany : s.products.any (fun q => q.categoryId == cid) = true :=
      List.any_eq_true.mpr ⟨p, hp, by simp [hcat]⟩
    unfold deleteCategory
    rw [hany]
    rfl
  · exact fun hno hex => deleteCategory_success cid s hno hex
  · intro pid href hex
    rcases deleteProduct_cases pid s with hdel | ⟨hdel, hnone⟩
    · rw [hdel]
      refine (deleteCategory_success cid _ ?_ ?_).1
      · intro p hp hcat
        have hp' := List.mem_filter.mp hp
        have hidp := href p hp'.1 hcat
        have hne := hp'.2
        rw [hidp] at hne
        simp at hne
      · exact hex
    · rw [hdel]
      refine (deleteCategory_success cid s ?_ hex).1
      intro p hp hcat
      exact hnone p hp (href p hp hcat)
  · intro u hnd hucat href hex
    by_cases hany : s.products.any (fun p => p.id == u.id) = true
    · have hstep : (updateProduct u s).snd
          = { s with
              products := updateFirst (fun p => p.id == u.id)
                (fun _ => u) s.products } := by
        unfold updateProduct
        rw [if_pos hany]
      rw [hstep]
      refine (deleteCategory_success cid _ ?_ ?_).1
      · intro p' hp' hcat
        rcases mem_updateFirst _ _ _ _ hp' with hmem | ⟨a, ha, -, rfl⟩
        · have hid := href p' hmem hcat
          have hpu : p' = u :=
            eq_of_mem_updateFirst_replace u s.products hnd p' hp' hid
          exact hucat (hpu ▸ hcat)
        · exact hucat hcat
      · exact hex
    · have hanyf : s.products.any (fun p => p.id == u.id) = false := by
        simpa using hany
      have hstep : (updateProduct u s).snd = s := by
        unfold updateProduct
        rw [if_neg hany]
      rw [hstep]
      refine (deleteCategory_success cid s ?_ hex).1
      intro p hp hcat
      have hid := href p hp hcat
      have hmem : s.products.any (fun p => p.id == u.id) = true :=
        List.any_eq_true.mpr ⟨p, hp, by simp [hid]⟩
      rw [hanyf] at hmem
      cases hmem

/-- C7 witness: in the sample store, category `c1` is referenced by product
`p1`, so deletion fails untouched; after deleting `p1`, deletion of `c1`
succeeds. -/
theorem C7_witness :
    deleteCategory "c1" exStore = (false, exStore) ∧
    (deleteCategory "c1" (deleteProduct "p1" exStore).snd).fst = true := by
  constructor
  · exact (C7_deleteCategory_referential_integrity "c1" exStore).1
      ⟨exProduct, by decide, by decide⟩
  · exact (C7_deleteCategory_referential_integrity "c1" exStore).2.2.1 "p1"
      (by decide) (by decide)

/-- C8: `updateProduct` writes only the product collection: the stored
transactions — and in particular every item's `priceAtTransaction`
snapshot — are exactly what they were before the product (and its prices)
changed. -/
theorem C8_priceAtTransaction_immutable (u : Product) (s : Store) :
    (updateProduct u s).snd.transactions = s.transactions ∧
    ((updateProduct u s).snd.transactions.map
        (fun t => t.items.map TransactionItem.priceAtTransaction))
      = s.transactions.map
          (fun t => t.items.map TransactionItem.priceAtTransaction) := by
  unfold updateProduct
  split <;> exact ⟨rfl, rfl⟩

/-- C9: `getPriceForUser` returns the product's `vipPrice` for a VIP user
when it is set, and the base `price` otherwise — in particular a VIP user
on a product with no `vipPrice` falls back to `price`, and a regular user
always gets `price`; it is a pure function of its two arguments. -/
theorem C9_getPriceForUser_spec (p : Product) (u : UserType) :
    (∀ vp, u = .vip → p.vipPrice = some vp → getPriceForUser p u = vp) ∧
    (p.vipPrice = none → getPriceForUser p u = p.price) ∧
    (u = .regular → getPriceForUser p u = p.price) := by
  refine ⟨?_, ?_, ?_⟩
  · rintro vp rfl hvp
    simp [getPriceForUser, hvp]
  · intro hnone
    cases u <;> simp [getPriceForUser, hnone]
  · rintro rfl
    cases hv : p.vipPrice <;> simp [getPriceForUser]

/-- C9 witness: VIP with `vipPrice` set gets 4; VIP without `vipPrice` gets
the base 3; a regular user gets the base 5. -/
theorem C9_witness :
    getPriceForUser exProduct .vip = 4 ∧
    getPriceForUser exProductZero .vip = 3 ∧
    getPriceForUser exProduct .regular = 5 := by
  refine ⟨?_, ?_, ?_⟩
  · exact (C9_getPriceForUser_spec exProduct .vip).1 4 rfl (by decide)
  · exact (C9_getPriceForUser_spec exProductZero .vip).2.1 (by decide)
  · exact (C9_getPriceForUser_spec exProduct .regular).2.2 rfl

/-- C10: the ledger silently skips items whose product id matches no stored
product — applying or reversing a transaction's effect equals applying the
transaction restricted to its items whose product is present, so no error
is raised and the remaining deltas still land (a multi-item effect applies
partially) — while the sufficiency predicate treats a missing product as
insufficient and returns `false`. -/
theorem C10_missing_product_skipped (t : Transaction) (ps : List Product) :
    (updateStockFromTransaction t ps
      = updateStockFromTransaction { t with items := presentItems t ps } ps) ∧
    (reverseTransactionStockEffects t ps
      = reverseTransactionStockEffects
          { t with items := presentItems t ps } ps) ∧
    (t.type = .outbound →
      ∀ i ∈ t.items, ps.find? (fun p => p.id == i.productId) = none →
      canProcessTransaction t ps = false) := by
  refine ⟨?_, ?_, ?_⟩
  · simp only [updateStockFromTransaction, presentItems]
    by_cases h : t.status = TransactionStatus.completed <;> simp [h]
    exact foldl_apply_filter_present t.type t.items ps
  · simp only [reverseTransactionStockEffects, presentItems]
    by_cases h : t.status = TransactionStatus.completed <;> simp [h]
    exact foldl_reverse_filter_present t.type t.items ps
  · intro hty i hi hnone
    unfold canProcessTransaction
    rw [if_pos hty]
    cases hloop : canProcessLoop ps t.items with
    | false => rfl
    | true =>
        obtain ⟨p, hp, -⟩ :=
          (canProcessLoop_eq_true ps t.items).mp hloop i hi
        rw [hnone] at hp
        cases hp

/-- C10 witness: on an outbound transaction with one missing-product item
and one present item, the sufficiency predicate returns `false`. -/
theorem C10_witness :
    canProcessTransaction exMixed [exProduct] = false :=
  (C10_missing_product_skipped exMixed [exProduct]).2.2 rfl exMissingItem
    (by decide) (by decide)
